import Mathlib

/-!
Verification of the SCP search tool's crawl-and-index core against its
specification.  Strings are modelled as `List Char`; Python's `str.lower`
is modelled per-character with `Char.toLower` (the source only relies on
ASCII case folding).  Every definition below is a direct translation of a
function in `src/scpsearchtool.py` or `src/utils/utils.py`, except the few
that are explicitly marked as modelling a sentence of the specification
for comparison purposes.
-/

/-- Python `s.lower()`, per character (`scpsearchtool.py` uses it at lines
58, 62, 66, 70, 74-75). -/
def pyLower (s : List Char) : List Char := s.map Char.toLower

/-- Auxiliary scanner for Python `str.count` with a non-empty pattern:
walks the string left to right; on a match it counts 1 and skips the rest
of the matched block (non-overlapping, greedy). -/
def pyCountAux (pat : List Char) : List Char → Nat → Nat
  | [], _ => 0
  | c :: rest, skip =>
    match skip with
    | k + 1 => pyCountAux pat rest k
    | 0 =>
      if pat.isPrefixOf (c :: rest) then 1 + pyCountAux pat rest (pat.length - 1)
      else pyCountAux pat rest 0

/-- Python `s.count(pat)`: number of non-overlapping occurrences of `pat`
in `s`, scanning left to right (for the empty pattern Python returns
`len(s) + 1`). -/
def pyCount (s pat : List Char) : Nat :=
  if pat = [] then s.length + 1 else pyCountAux pat s 0

/-- Python `s.find(pat)`: index of the first occurrence, `none` when
absent (`-1` in Python). -/
def findIdx : List Char → List Char → Option Nat
  | [], pat => if pat.isPrefixOf [] then some 0 else none
  | c :: rest, pat =>
    if pat.isPrefixOf (c :: rest) then some 0
    else (findIdx rest pat).map (· + 1)

/-- Character class of the token regex `[A-Za-z0-9']+`
(`scpsearchtool.py` line 55). -/
def wordChar (c : Char) : Bool := c.isAlphanum || c == '\''

/-- Splits a string into the maximal runs matched by `[A-Za-z0-9']+`;
`cur` holds the current run, reversed. -/
def tokensAux : List Char → List Char → List (List Char)
  | [], cur => if cur.isEmpty then [] else [cur.reverse]
  | c :: rest, cur =>
    if wordChar c then tokensAux rest (c :: cur)
    else if cur.isEmpty then tokensAux rest [] else cur.reverse :: tokensAux rest []

/-- `tokenize` (`scpsearchtool.py` lines 57-58): regex findall of
`[A-Za-z0-9']+`, each token lowercased. -/
def tokenize (s : List Char) : List (List Char) :=
  (tokensAux s []).map pyLower

/-- `count_phrase` (`scpsearchtool.py` lines 60-62): case-insensitive
non-overlapping substring count of the full phrase. -/
def count_phrase (text phrase : List Char) : Nat :=
  pyCount (pyLower text) (pyLower phrase)

/-- Python dict assignment `d[k] = v`: updates in place when the key is
present (keeping its position), otherwise appends. -/
def dictInsert {β : Type} (d : List (List Char × β)) (k : List Char) (v : β) :
    List (List Char × β) :=
  if d.any (fun kv => decide (kv.1 = k)) then
    d.map (fun kv => if kv.1 = k then (k, v) else kv)
  else d ++ [(k, v)]

/-- Python dict lookup `d.get(k)`. -/
def lookupD {β : Type} : List (List Char × β) → List Char → Option β
  | [], _ => none
  | kv :: rest, k => if kv.1 = k then some kv.2 else lookupD rest k

/-- Sum of the values of a dict, Python `sum(d.values())`. -/
def sumVals {β : Type} (d : List (List Char × β)) (f : β → Nat) : Nat :=
  (d.map (fun kv => f kv.2)).sum

/-- `count_terms` (`scpsearchtool.py` lines 64-71): one dict entry per
non-empty term, value `low.count(t.lower())` with `low = text.lower()`. -/
def count_terms (text : List Char) (terms : List (List Char)) :
    List (List Char × Nat) :=
  terms.foldl
    (fun counts t =>
      if t = [] then counts
      else dictInsert counts t (pyCount (pyLower text) (pyLower t)))
    []

/-- Modelled from the spec: the occurrence count of C2's sentence, the
number of all start positions at which the term occurs, so overlapping
placements are counted separately. -/
def specOverlapCount (s pat : List Char) : Nat :=
  ((List.range (s.length + 1)).filter (fun i => pat.isPrefixOf (s.drop i))).length

/-- The qualifying query terms of the search path (`scpsearchtool.py`
lines 79 and 287): tokens of length greater than 2. -/
def qualTerms (query : List Char) : List (List Char) :=
  (tokenize query).filter (fun t => 2 < t.length)

/-- The loop of `make_snippet` (`scpsearchtool.py` lines 79-83): first
term, in tokenized order, that occurs in the lowered text. -/
def firstFound (low : List Char) : List (List Char) → Option Nat
  | [] => none
  | p :: rest =>
    match findIdx low p with
    | some i => some i
    | none => firstFound low rest

/-- Index selection of `make_snippet` (`scpsearchtool.py` lines 74-85):
the first occurrence of the full query, else of the first qualifying
term that is found at all. -/
def snippet_idx (text query : List Char) : Option Nat :=
  match findIdx (pyLower text) (pyLower query) with
  | some i => some i
  | none => firstFound (pyLower text) (qualTerms query)

/-- The snippet window of `make_snippet` (`scpsearchtool.py` lines
86-88): `text[start:end]` with newlines replaced by spaces. -/
def snipCore (text query : List Char) (max_len i : Nat) : List Char :=
  let start := i - max_len / 3
  let e := min text.length (i + query.length + max_len / 3)
  ((text.drop start).take (e - start)).map (fun c => if c = '\n' then ' ' else c)

/-- `make_snippet` (`scpsearchtool.py` lines 73-89). -/
def make_snippet (text query : List Char) (max_len : Nat) : Option (List Char) :=
  match snippet_idx text query with
  | none => none
  | some i =>
    some (snipCore text query max_len i ++
      (if min text.length (i + query.length + max_len / 3) < text.length
       then ['…'] else []))

/-- `Page` (`utils/utils.py` lines 27-31). -/
structure Page where
  url : List Char
  title : List Char
  text : List Char
deriving DecidableEq

/-- `SearchResult` (`utils/utils.py` lines 33-39); the score is a natural
number because `raw_score = 3*phrase_hits + sum(term_hits)` is always
non-negative. -/
structure SearchResult where
  url : List Char
  title : List Char
  score : Nat
  phrase_hits : Nat
  term_hits : List (List Char × Nat)
  snippet : Option (List Char)
deriving DecidableEq

/-- One iteration of the result-building loop of `search`
(`scpsearchtool.py` lines 290-305): score the page, skip it when
`raw_score` is not positive (`raw_score <= 0` on naturals is `= 0`),
otherwise build the `SearchResult`. -/
def score_entry (page : Page) (query : List Char) : Option SearchResult :=
  if 3 * count_phrase page.text query +
      sumVals (count_terms page.text (qualTerms query)) id = 0 then none
  else some
    { url := page.url
      title := page.title
      score := 3 * count_phrase page.text query +
        sumVals (count_terms page.text (qualTerms query)) id
      phrase_hits := count_phrase page.text query
      term_hits := count_terms page.text (qualTerms query)
      snippet := make_snippet page.text query 240 }

/-- The result list of `search` before sorting (`scpsearchtool.py` lines
287-305), in cache iteration order. -/
def search_results (pages : List Page) (query : List Char) : List SearchResult :=
  pages.filterMap (fun page => score_entry page query)

/-- One step of the stable descending sort: a new element passes over the
strictly greater scores and stops in front of the first element whose
score is less than or equal to its own. -/
def insDesc (x : SearchResult) : List SearchResult → List SearchResult
  | [] => [x]
  | y :: ys => if x.score < y.score then y :: insDesc x ys else x :: y :: ys

/-- `results.sort(key=lambda r: r.score, reverse=True)` (`scpsearchtool.py`
line 307): Python's sort is stable, so an earlier element precedes a later
one of equal score; modelled by a stable insertion sort. -/
def pySortDesc : List SearchResult → List SearchResult
  | [] => []
  | x :: rest => insDesc x (pySortDesc rest)

/-- `search` (`scpsearchtool.py` lines 287-308), after the bootstrap
check: score, filter, stable descending sort, truncate to `limit`. -/
def search (pages : List Page) (query : List Char) (limit : Nat) :
    List SearchResult :=
  (pySortDesc (search_results pages query)).take limit

/-- A parsed HTML document, as far as the source inspects it: elements
carry a tag, the attributes the source reads (`id`, `class`, `href`) and
children; text nodes carry a string.  BeautifulSoup parsing itself is an
external collaborator; the source only ever consumes parsed trees. -/
inductive HNode where
  | elem (tag : String) (idAttr : Option String) (classes : List String)
      (href : Option (List Char)) (children : List HNode) : HNode
  | txt (s : List Char) : HNode

/-- Python whitespace as stripped by `str.strip()` / `str.rstrip()`. -/
def isPyWs (c : Char) : Bool :=
  c == ' ' || c == '\t' || c == '\n' || c == '\r' || c == '\x0b' || c == '\x0c'

/-- Python `s.strip()`. -/
def pyStrip (s : List Char) : List Char :=
  ((s.dropWhile isPyWs).reverse.dropWhile isPyWs).reverse

/-- Python `s.rstrip()` (also the per-line trim of `_clean_text`). -/
def pyRStrip (s : List Char) : List Char :=
  (s.reverse.dropWhile isPyWs).reverse

mutual
/-- All text-node strings of a node, in document order
(BeautifulSoup `.strings`). -/
def textsOf : HNode → List (List Char)
  | .txt s => [s]
  | .elem _ _ _ _ children => textsList children

def textsList : List HNode → List (List Char)
  | [] => []
  | n :: rest => textsOf n ++ textsList rest
end

/-- Joins pieces with newlines, Python `"\n".join(...)`. -/
def joinNL : List (List Char) → List Char
  | [] => []
  | [l] => l
  | l :: rest => l ++ '\n' :: joinNL rest

/-- BeautifulSoup `get_text("\n", strip=True)` (`utils/utils.py` line 57):
each text string stripped, empty ones dropped, joined by newlines. -/
def getTextNL (n : HNode) : List Char :=
  joinNL (((textsOf n).map pyStrip).filter (fun l => !l.isEmpty))

/-- BeautifulSoup `get_text("\n")` without stripping
(`scpsearchtool.py` lines 220 and 242). -/
def getTextRaw (n : HNode) : List Char :=
  joinNL (textsOf n)

mutual
/-- BeautifulSoup `soup.find(id=target)`: first element in document order
with the given id. -/
def findById : HNode → String → Option HNode
  | .txt _, _ => none
  | .elem t i c h ch, target =>
    if i = some target then some (.elem t i c h ch) else findByIdList ch target

def findByIdList : List HNode → String → Option HNode
  | [], _ => none
  | n :: rest, target =>
    match findById n target with
    | some r => some r
    | none => findByIdList rest target
end

mutual
/-- BeautifulSoup `soup.find("div", {"class": "content"})`: first `div`
carrying the given class. -/
def findDivClass : HNode → String → Option HNode
  | .txt _, _ => none
  | .elem t i c h ch, target =>
    if t = "div" ∧ target ∈ c then some (.elem t i c h ch)
    else findDivClassList ch target

def findDivClassList : List HNode → String → Option HNode
  | [], _ => none
  | n :: rest, target =>
    match findDivClass n target with
    | some r => some r
    | none => findDivClassList rest target
end

mutual
/-- BeautifulSoup `soup.find(tag)`: first element with the given tag. -/
def findTag : HNode → String → Option HNode
  | .txt _, _ => none
  | .elem t i c h ch, target =>
    if t = target then some (.elem t i c h ch) else findTagList ch target

def findTagList : List HNode → String → Option HNode
  | [], _ => none
  | n :: rest, target =>
    match findTag n target with
    | some r => some r
    | none => findTagList rest target
end

mutual
/-- BeautifulSoup `soup.select_one("div#<target>")`: first `div` carrying
the given id (`scpsearchtool.py` line 215). -/
def findDivId : HNode → String → Option HNode
  | .txt _, _ => none
  | .elem t i c h ch, target =>
    if t = "div" ∧ i = some target then some (.elem t i c h ch)
    else findDivIdList ch target

def findDivIdList : List HNode → String → Option HNode
  | [], _ => none
  | n :: rest, target =>
    match findDivId n target with
    | some r => some r
    | none => findDivIdList rest target
end

/-- `extract_main_text` (`utils/utils.py` lines 52-58), the extractor the
crawl pipeline uses: container is `id="page-content"`, else a `div` of
class `content`, else the whole document; the text is
`get_text("\n", strip=True)` of the container.  The title is the `title`
element's stripped text. -/
def extract_main_text (doc : HNode) : List Char × List Char :=
  let title :=
    match findTag doc "title" with
    | some t => (((textsOf t).map pyStrip).filter (fun l => !l.isEmpty)).flatten
    | none => []
  let main :=
    match findById doc "page-content" with
    | some m => some m
    | none => findDivClass doc "content"
  let text :=
    match main with
    | some m => getTextNL m
    | none => getTextNL doc
  (title, text)


/-- First substitution of `_clean_text` (`scpsearchtool.py` line 251):
the regex `\r\n?` replaced by a newline. -/
def normEOL : List Char → List Char
  | [] => []
  | c :: rest =>
    if c = '\r' then
      match rest with
      | [] => ['\n']
      | c2 :: rest2 =>
        if c2 = '\n' then '\n' :: normEOL rest2 else '\n' :: normEOL (c2 :: rest2)
    else c :: normEOL rest

/-- Emitted run for `\n{3,}` replaced by two newlines: a run of `n`
newlines becomes two when `n` is at least 3 and stays `n` otherwise. -/
def nlEmit (n : Nat) : List Char :=
  List.replicate (if 3 ≤ n then 2 else n) '\n'

/-- Scanner for the second substitution of `_clean_text`
(`scpsearchtool.py` line 252); `n` counts the pending newline run. -/
def collapseNLAux : List Char → Nat → List Char
  | [], n => nlEmit n
  | c :: rest, n =>
    if c = '\n' then collapseNLAux rest (n + 1)
    else nlEmit n ++ c :: collapseNLAux rest 0

/-- The regex `\n{3,}` replaced by two newlines. -/
def collapseNL (s : List Char) : List Char := collapseNLAux s 0

/-- Python `text.split("\n")`; `cur` holds the current piece, reversed. -/
def splitNLAux : List Char → List Char → List (List Char)
  | [], cur => [cur.reverse]
  | c :: rest, cur =>
    if c = '\n' then cur.reverse :: splitNLAux rest []
    else splitNLAux rest (c :: cur)

/-- Python `text.split("\n")`. -/
def splitNL (s : List Char) : List (List Char) := splitNLAux s []

/-- Third step of `_clean_text` (`scpsearchtool.py` line 253):
`"\n".join(line.rstrip() for line in text.split("\n"))`. -/
def rstripLines (s : List Char) : List Char :=
  joinNL ((splitNL s).map pyRStrip)

/-- `_clean_text` (`scpsearchtool.py` lines 249-254): normalize line
endings, collapse newline runs of three or more to two, trim each line's
trailing whitespace, strip the whole result. -/
def clean_text (s : List Char) : List Char :=
  pyStrip (rstripLines (collapseNL (normEOL s)))

/-- The junk selectors removed by `_extract_scp_body_from_html`
(`scpsearchtool.py` lines 234-238) that name a class. -/
def chromeClasses : List String :=
  ["page-rate-widget-box", "page-tags", "footer-wikiwalk-nav", "licensebox",
   "options", "breadcrumbs", "mobile-top-bar", "printuser"]

/-- The junk selectors removed by `_extract_scp_body_from_html`
(`scpsearchtool.py` lines 234-238) that name an id. -/
def chromeIds : List String :=
  ["page-options-container", "page-info", "discuss"]

/-- Whether a node matches one of the junk selectors. -/
def isChrome : HNode → Bool
  | .txt _ => false
  | .elem _ i cls _ _ =>
    (match i with
     | some s => chromeIds.contains s
     | none => false) || cls.any (fun c => chromeClasses.contains c)

mutual
/-- The removal loop of `_extract_scp_body_from_html` (`scpsearchtool.py`
lines 234-240): `el.decompose()` deletes every descendant subtree matching
a junk selector (the root container itself is kept, `select` only returns
descendants). -/
def stripChrome : HNode → HNode
  | .txt s => .txt s
  | .elem t i c h ch => .elem t i c h (stripChromeList ch)

def stripChromeList : List HNode → List HNode
  | [] => []
  | n :: rest =>
    if isChrome n then stripChromeList rest
    else stripChrome n :: stripChromeList rest
end

mutual
/-- Whether some strict descendant of the node matches a junk selector. -/
def hasChromeDesc : HNode → Bool
  | .txt _ => false
  | .elem _ _ _ _ ch => hasChromeDescList ch

def hasChromeDescList : List HNode → Bool
  | [] => false
  | n :: rest => isChrome n || hasChromeDesc n || hasChromeDescList rest
end

/-- `_extract_scp_body_from_html` (`scpsearchtool.py` lines 210-242), the
on-demand article extractor of the UI and TTS paths: select the
`page-content` container (fallback: a `div` of class `content`; the
remaining fallback selectors of the source's comma list are modelled by
its first alternative, and the no-BeautifulSoup regex branch is dead code
in its environment), remove the junk selectors, then
`_clean_text` of `get_text("\n")`.  Without a container the whole
document's raw text is cleaned. -/
def extract_scp_body_from_html (doc : HNode) : List Char :=
  let container :=
    match findDivId doc "page-content" with
    | some m => some m
    | none => findDivClass doc "content"
  match container with
  | none => clean_text (getTextRaw doc)
  | some c => clean_text (getTextRaw (stripChrome c))

mutual
/-- BeautifulSoup `soup.find_all("a", href=True)` restricted to what the
source reads: the `href` values in document order
(`utils/utils.py` line 65). -/
def hrefsOf : HNode → List (List Char)
  | .txt _ => []
  | .elem t _ _ h ch =>
    (if t = "a" then
      match h with
      | some v => [v]
      | none => []
     else []) ++ hrefsList ch

def hrefsList : List HNode → List (List Char)
  | [] => []
  | n :: rest => hrefsOf n ++ hrefsList rest
end

/-- Prefix of the article URL pattern
`^https://scp-wiki\.wikidot\.com/scp-\d{3,4}$` (`utils/utils.py`
line 60). -/
def scpPrefix : List Char := "https://scp-wiki.wikidot.com/scp-".data

/-- The article URL pattern of `utils/utils.py` line 60: the fixed prefix
followed by exactly three or four digits. -/
def scpUrlMatch (u : List Char) : Bool :=
  scpPrefix.isPrefixOf u &&
    (let ds := u.drop scpPrefix.length
     !ds.isEmpty && ds.all Char.isDigit && decide (3 ≤ ds.length) &&
       decide (ds.length ≤ 4))

/-- Resolution of a relative href (`utils/utils.py` lines 67-68). -/
def absolutize (href : List Char) : List Char :=
  if ("/".data).isPrefixOf href then "https://scp-wiki.wikidot.com".data ++ href
  else href

/-- Lexicographic comparison of strings by code point, Python's ordering
inside `sorted`. -/
def lexLe : List Char → List Char → Bool
  | [], _ => true
  | _ :: _, [] => false
  | a :: as_, b :: bs =>
    if a = b then lexLe as_ bs else decide (a.toNat < b.toNat)

/-- Insertion step of a lexicographic sort of strings. -/
def insLex (x : List Char) : List (List Char) → List (List Char)
  | [] => [x]
  | y :: ys => if lexLe x y then x :: y :: ys else y :: insLex x ys

/-- A sorted list of strings. -/
def sortLex : List (List Char) → List (List Char)
  | [] => []
  | x :: rest => insLex x (sortLex rest)

/-- Duplicate removal; which duplicate survives is irrelevant after
sorting, so this models Python's `set`. -/
def dedup : List (List Char) → List (List Char)
  | [] => []
  | x :: rest => if x ∈ rest then dedup rest else x :: dedup rest

/-- Python `sorted(set(links))`: duplicates removed, result sorted. -/
def sortedSet (l : List (List Char)) : List (List Char) :=
  sortLex (dedup l)

/-- `extract_links_from_series` (`utils/utils.py` lines 62-71): each
anchor's href is stripped, resolved to absolute when relative, kept when
it matches the article URL pattern; the result is `sorted(set(...))`. -/
def extract_links_from_series (doc : HNode) : List (List Char) :=
  sortedSet (((hrefsOf doc).map (fun h => absolutize (pyStrip h))).filter scpUrlMatch)

/-- `fetch` (`utils/utils.py` lines 41-50) as a function of the network
outcome: `none` for a transport error or timeout (the `except` branch),
otherwise the status code and body; only a 200 response with a non-empty
body yields text, everything else degrades to `none`. -/
def fetch (resp : Option (Nat × List Char)) : Option (List Char) :=
  match resp with
  | none => none
  | some (status, text) => if status = 200 ∧ text ≠ [] then some text else none

/-- The filter at the head of `crawl_pages` (`utils/utils.py` line 94):
the URLs that get a worker, and hence a fetch, are exactly those not yet
in the cache. -/
def crawl_to_get (urls : List (List Char)) (page_cache : List (List Char × Page)) :
    List (List Char) :=
  urls.filter (fun u => (lookupD page_cache u).isNone)

/-- The worker `_task` of `crawl_pages` (`utils/utils.py` lines
100-107).  `net` maps a URL to
the parsed document of a successful fetch and to `none` on any fetch
failure (exception, non-200 status or empty body — the contract of
`fetch` above; the worker's `if not html` test is exactly `none` here).
Each successful worker stores `Page(url=u, title, text)` from
`extract_main_text` under the key `u`; concurrent workers touch distinct
keys, so the interleaving does not affect the resulting mapping and the
fold is in list order. -/
def crawl_step (net : List Char → Option HNode)
    (pc : List (List Char × Page)) (u : List Char) : List (List Char × Page) :=
  match net u with
  | none => pc
  | some doc =>
    dictInsert pc u ⟨u, (extract_main_text doc).1, (extract_main_text doc).2⟩

/-- `crawl_pages` (`utils/utils.py` lines 92-109): every URL of `to_get`
runs a worker (`crawl_step`); the workers insert distinct keys, so the
interleaving does not affect the resulting mapping and the fold is in
list order. -/
def crawl_pages (net : List Char → Option HNode) (urls : List (List Char))
    (page_cache : List (List Char × Page)) : List (List Char × Page) :=
  (crawl_to_get urls page_cache).foldl (crawl_step net) page_cache

/-- `SERIES_INDEX_URLS` (`utils/utils.py` lines 19-24). -/
def SERIES_INDEX_URLS : List (List Char) :=
  ["https://scp-wiki.wikidot.com/scp-series".data,
   "https://scp-wiki.wikidot.com/scp-series-2".data,
   "https://scp-wiki.wikidot.com/scp-series-3".data]

/-- `build_seed_links` (`utils/utils.py` lines 73-90).  `seriesDocs` are
the fetch results for `SERIES_INDEX_URLS` (`none` = failed fetch, skipped).
The final assignments `links_cache = sorted(set(links))` and
`links_initialized = True` in the source bind local names only — the
function declares no `global`, so the module-level `_links_cache` and
`_links_initialized` are untouched; accordingly this function returns the
links and no state change. -/
def build_seed_links (seriesDocs : List (Option HNode))
    (links_cache : List (List Char)) (links_init : Bool) : List (List Char) :=
  if links_init ∧ links_cache ≠ [] then links_cache
  else sortedSet (((seriesDocs.filterMap id).map extract_links_from_series).flatten)

/-- The index URLs `build_seed_links` fetches (`utils/utils.py` lines
77-78): none on a memoization hit, all of `SERIES_INDEX_URLS` otherwise. -/
def build_seed_fetch_urls (links_cache : List (List Char)) (links_init : Bool) :
    List (List Char) :=
  if links_init ∧ links_cache ≠ [] then [] else SERIES_INDEX_URLS

/-- The module-level mutable state of `scpsearchtool.py` (lines 49-51):
`_page_cache`, `_links_cache`, `_links_initialized`. -/
structure AppState where
  links_cache : List (List Char)
  links_initialized : Bool
  page_cache : List (List Char × Page)
deriving DecidableEq

/-- The state at process start (`scpsearchtool.py` lines 49-51). -/
def initState : AppState := ⟨[], false, []⟩

/-- The pages `search` iterates over: the cache's values in insertion
order (`scpsearchtool.py` line 290). -/
def valuesOf (d : List (List Char × Page)) : List Page := d.map (fun kv => kv.2)

/-- The `/search` endpoint (`scpsearchtool.py` lines 275-308): when
`_links_initialized` is false it bootstraps — builds seed links and crawls
the first 250 — then ranks the cache.  Only `page_cache` can change:
`build_seed_links` never writes the two link globals (see its comment), so
`links_initialized` remains false after the bootstrap. -/
def search_endpoint (net : List Char → Option HNode)
    (seriesDocs : List (Option HNode)) (st : AppState) (query : List Char)
    (limit : Nat) : List SearchResult × AppState :=
  let st' :=
    if st.links_initialized then st
    else
      let links := build_seed_links seriesDocs st.links_cache st.links_initialized
      { st with page_cache := crawl_pages net (links.take 250) st.page_cache }
  (search (valuesOf st'.page_cache) query limit, st')

/-- Whether a `/search` call on this state runs the implicit bootstrap
crawl (the guard at `scpsearchtool.py` line 282). -/
def bootstrapRuns (st : AppState) : Bool := !st.links_initialized

/-- `CONCURRENCY` (`utils/utils.py` line 15). -/
def CONCURRENCY : Nat := 8

/-- Scheduler state of one `crawl_pages` call: workers that have not yet
entered the semaphore, workers inside the semaphore (their fetch may be in
flight), and workers that released it. -/
structure CrawlSched where
  pending : Nat
  inflight : Nat
  finished : Nat
deriving DecidableEq

/-- The transitions of the worker pool of `crawl_pages` (`utils/utils.py`
lines 98-109): a worker enters the `async with sem` block only when fewer
than `C` workers hold the semaphore (`asyncio.Semaphore(C)`), and the
whole fetch happens inside the block; leaving the block releases the
slot. -/
inductive CrawlStep (C : Nat) : CrawlSched → CrawlSched → Prop
  | start (p i d : Nat) : i < C → CrawlStep C ⟨p + 1, i, d⟩ ⟨p, i + 1, d⟩
  | finish (p i d : Nat) : CrawlStep C ⟨p, i + 1, d⟩ ⟨p, i, d + 1⟩

/-- States reachable by a crawl of `N` URLs with concurrency ceiling
`C`, starting from all workers pending. -/
def CrawlReach (C N : Nat) (s : CrawlSched) : Prop :=
  Relation.ReflTransGen (CrawlStep C) ⟨N, 0, 0⟩ s

/-- Modelled from the spec: the canonical form of a URL under C8's
variant relation — the query string removed, then one trailing slash
removed.  Two URLs are variants in the sense of the claim exactly when
they differ but canonicalize identically. -/
def canonURL (u : List Char) : List Char :=
  let noQ := u.takeWhile (fun c => c ≠ '?')
  if noQ.getLast? = some '/' then noQ.dropLast else noQ

/-- Bounded-newline-run check: `runsOK s n = true` states that, entered
with `n` pending newlines, every maximal run of consecutive newline
characters in `s` stays at length at most 2 — the postcondition of the
`\n{3,}` collapse. -/
def runsOK : List Char → Nat → Bool
  | [], _ => true
  | c :: rest, n =>
    if c = '\n' then decide (n + 1 ≤ 2) && runsOK rest (n + 1)
    else runsOK rest 0

theorem lookupD_mapUpdate_self {β : Type} (d : List (List Char × β)) (k : List Char)
    (v : β) (h : d.any (fun kv => decide (kv.1 = k)) = true) :
    lookupD (d.map (fun kv => if kv.1 = k then (k, v) else kv)) k = some v := by
  induction d with
  | nil => simp at h
  | cons kv rest ih =>
    rw [List.map_cons]
    by_cases h1 : kv.1 = k
    · rw [if_pos h1]
      simp [lookupD]
    · rw [if_neg h1]
      simp only [List.any_cons, Bool.or_eq_true, decide_eq_true_eq] at h
      rcases h with h | h
      · exact absurd h h1
      · simp only [lookupD, if_neg h1]
        exact ih h

theorem lookupD_append_single_self {β : Type} (d : List (List Char × β)) (k : List Char)
    (v : β) (h : d.any (fun kv => decide (kv.1 = k)) = false) :
    lookupD (d ++ [(k, v)]) k = some v := by
  induction d with
  | nil => simp [lookupD]
  | cons kv rest ih =>
    simp only [List.any_cons, Bool.or_eq_false_iff, decide_eq_false_iff_not] at h
    rw [List.cons_append]
    simp only [lookupD, if_neg h.1]
    exact ih h.2

theorem lookupD_mapUpdate_ne {β : Type} (d : List (List Char × β)) (k k' : List Char)
    (v : β) (h : k' ≠ k) :
    lookupD (d.map (fun kv => if kv.1 = k then (k, v) else kv)) k' = lookupD d k' := by
  induction d with
  | nil => rfl
  | cons kv rest ih =>
    rw [List.map_cons]
    by_cases h1 : kv.1 = k
    · rw [if_pos h1]
      have hkk : ¬ k = k' := fun hh => h hh.symm
      have hkv : ¬ kv.1 = k' := by
        rw [h1]
        exact hkk
      simp only [lookupD, if_neg hkk, if_neg hkv]
      exact ih
    · rw [if_neg h1]
      by_cases h4 : kv.1 = k'
      · simp only [lookupD, if_pos h4]
      · simp only [lookupD, if_neg h4]
        exact ih

theorem lookupD_append_single_ne {β : Type} (d : List (List Char × β)) (k k' : List Char)
    (v : β) (h : k' ≠ k) : lookupD (d ++ [(k, v)]) k' = lookupD d k' := by
  induction d with
  | nil =>
    rw [List.nil_append]
    simp only [lookupD, if_neg (fun hh : k = k' => h hh.symm)]
  | cons kv rest ih =>
    rw [List.cons_append]
    by_cases h1 : kv.1 = k'
    · simp only [lookupD, if_pos h1]
    · simp only [lookupD, if_neg h1]
      exact ih

theorem lookupD_dictInsert_self {β : Type} (d : List (List Char × β)) (k : List Char)
    (v : β) : lookupD (dictInsert d k v) k = some v := by
  unfold dictInsert
  split
  · exact lookupD_mapUpdate_self d k v (by assumption)
  · rename_i hc
    exact lookupD_append_single_self d k v (Bool.eq_false_iff.mpr hc)

theorem lookupD_dictInsert_ne {β : Type} (d : List (List Char × β)) (k k' : List Char)
    (v : β) (h : k' ≠ k) : lookupD (dictInsert d k v) k' = lookupD d k' := by
  unfold dictInsert
  split
  · exact lookupD_mapUpdate_ne d k k' v h
  · exact lookupD_append_single_ne d k k' v h

theorem mem_dictInsert {β : Type} (d : List (List Char × β)) (k : List Char) (v : β)
    (kv' : List Char × β) (h : kv' ∈ dictInsert d k v) : kv' ∈ d ∨ kv' = (k, v) := by
  unfold dictInsert at h
  split at h
  · rcases List.mem_map.mp h with ⟨kv0, h0, heq⟩
    by_cases h1 : kv0.1 = k
    · right
      rw [if_pos h1] at heq
      exact heq.symm
    · left
      rw [if_neg h1] at heq
      exact heq ▸ h0
  · rcases List.mem_append.mp h with h0 | h0
    · exact Or.inl h0
    · exact Or.inr (by simpa using h0)

theorem count_terms_lookup_not_mem (text t : List Char) :
    ∀ (terms : List (List Char)) (d : List (List Char × Nat)), t ∉ terms →
      lookupD (terms.foldl
        (fun counts u =>
          if u = [] then counts
          else dictInsert counts u (pyCount (pyLower text) (pyLower u))) d) t =
      lookupD d t
  | [], _, _ => rfl
  | t' :: rest, d, h => by
    have hrest : t ∉ rest := fun hm => h (List.mem_cons_of_mem _ hm)
    have hne : t ≠ t' := fun he => h (he ▸ List.mem_cons_self _ _)
    rw [List.foldl_cons, count_terms_lookup_not_mem text t rest _ hrest]
    split
    · rfl
    · exact lookupD_dictInsert_ne _ _ _ _ hne

theorem count_terms_lookup_mem (text t : List Char) :
    ∀ (terms : List (List Char)) (d : List (List Char × Nat)),
      t ∈ terms → t ≠ [] →
      lookupD (terms.foldl
        (fun counts u =>
          if u = [] then counts
          else dictInsert counts u (pyCount (pyLower text) (pyLower u))) d) t =
      some (pyCount (pyLower text) (pyLower t))
  | [], _, hmem, _ => absurd hmem (List.not_mem_nil t)
  | t' :: rest, d, hmem, hne => by
    by_cases hr : t ∈ rest
    · rw [List.foldl_cons]
      exact count_terms_lookup_mem text t rest _ hr hne
    · have ht : t = t' := by
        rcases List.mem_cons.mp hmem with h | h
        · exact h
        · exact absurd h hr
      subst ht
      rw [List.foldl_cons, if_neg hne, count_terms_lookup_not_mem text t rest _ hr]
      exact lookupD_dictInsert_self _ _ _

/-- C2, amended: for every page text and every non-empty term of the term
list, the term-hits dict maps the term to the case-insensitive
NON-overlapping substring count (Python `str.count`, greedy left to
right): adjacent placements are counted, overlapping ones are not. -/
theorem c2_term_hits_nonoverlapping (text : List Char) (terms : List (List Char))
    (t : List Char) (hmem : t ∈ terms) (hne : t ≠ []) :
    lookupD (count_terms text terms) t = some (pyCount (pyLower text) (pyLower t)) :=
  count_terms_lookup_mem text t terms [] hmem hne

/-- Witness for `c2_term_hits_nonoverlapping` at a concrete page text and
term list. -/
theorem c2_term_hits_nonoverlapping_witness :
    lookupD (count_terms "aaaa".data ["aaa".data]) "aaa".data =
      some (pyCount (pyLower "aaaa".data) (pyLower "aaa".data)) :=
  c2_term_hits_nonoverlapping "aaaa".data ["aaa".data] "aaa".data (by decide)
    (by decide)

/-- C2 counterexample: for the page text `aaaa` and the qualifying query
term `aaa` (a lowercase alphanumeric token of length 3 of the query
`aaa`), the occurrence count that includes overlapping placements is 2,
but the code's term-hits value is 1 — Python `str.count` never counts
overlapping occurrences. -/
theorem c2_counterexample :
    qualTerms "aaa".data = ["aaa".data] ∧
    lookupD (count_terms "aaaa".data (qualTerms "aaa".data)) "aaa".data = some 1 ∧
    specOverlapCount (pyLower "aaaa".data) (pyLower "aaa".data) = 2 ∧
    (1 : Nat) ≠ 2 := by decide

theorem insDesc_perm (x : SearchResult) : ∀ l, (insDesc x l).Perm (x :: l)
  | [] => List.Perm.refl _
  | y :: ys => by
    unfold insDesc
    split
    · exact (((insDesc_perm x ys).cons y).trans (List.Perm.swap x y ys))
    · exact List.Perm.refl _

theorem pySortDesc_perm : ∀ l, (pySortDesc l).Perm l
  | [] => List.Perm.refl _
  | x :: rest =>
    (insDesc_perm x (pySortDesc rest)).trans ((pySortDesc_perm rest).cons x)

theorem mem_results_of_mem_search (pages : List Page) (query : List Char)
    (limit : Nat) (r : SearchResult) (h : r ∈ search pages query limit) :
    r ∈ search_results pages query :=
  (pySortDesc_perm (search_results pages query)).mem_iff.mp
    (List.take_subset _ _ h)

theorem score_entry_shape (page : Page) (query : List Char) (r : SearchResult)
    (h : score_entry page query = some r) :
    r.phrase_hits = count_phrase page.text query ∧
    r.term_hits = count_terms page.text (qualTerms query) ∧
    r.score = 3 * count_phrase page.text query +
      sumVals (count_terms page.text (qualTerms query)) id ∧
    0 < r.score := by
  unfold score_entry at h
  split at h
  · cases h
  · rename_i hz
    cases Option.some.inj h
    exact ⟨rfl, rfl, rfl, Nat.pos_of_ne_zero hz⟩

/-- C1: every result the search/rank path returns carries the score
`3 * phraseHits + sum(termHits)` of some cached page, where `phraseHits`
is `count_phrase` — the case-insensitive, non-overlapping occurrence count
of the full query string in the page text — and the term-hits dict is
`count_terms` of the qualifying query terms. -/
theorem c1_score_formula (pages : List Page) (query : List Char) (limit : Nat)
    (r : SearchResult) (h : r ∈ search pages query limit) :
    ∃ page ∈ pages,
      r.phrase_hits = count_phrase page.text query ∧
      r.term_hits = count_terms page.text (qualTerms query) ∧
      r.score = 3 * count_phrase page.text query +
        sumVals (count_terms page.text (qualTerms query)) id := by
  rcases List.mem_filterMap.mp (mem_results_of_mem_search pages query limit r h)
    with ⟨page, hp, heq⟩
  rcases score_entry_shape page query r heq with ⟨h1, h2, h3, _⟩
  exact ⟨page, hp, h1, h2, h3⟩

/-- Witness for `c1_score_formula`: a one-page cache containing the phrase
once and both terms once, scored 3*1 + 2 = 5. -/
theorem c1_score_formula_witness :
    ∃ page ∈ [(⟨"u".data, "t".data, "anomaly red door".data⟩ : Page)],
      (⟨"u".data, "t".data, 5, 1, [("red".data, 1), ("door".data, 1)],
          some "anomaly red door".data⟩ : SearchResult).phrase_hits =
        count_phrase page.text "red door".data ∧
      (⟨"u".data, "t".data, 5, 1, [("red".data, 1), ("door".data, 1)],
          some "anomaly red door".data⟩ : SearchResult).term_hits =
        count_terms page.text (qualTerms "red door".data) ∧
      (⟨"u".data, "t".data, 5, 1, [("red".data, 1), ("door".data, 1)],
          some "anomaly red door".data⟩ : SearchResult).score =
        3 * count_phrase page.text "red door".data +
          sumVals (count_terms page.text (qualTerms "red door".data)) id :=
  c1_score_formula
    [⟨"u".data, "t".data, "anomaly red door".data⟩]
    "red door".data 5
    ⟨"u".data, "t".data, 5, 1, [("red".data, 1), ("door".data, 1)],
      some "anomaly red door".data⟩
    (by decide)

theorem search_results_score_pos (pages : List Page) (query : List Char)
    (r : SearchResult) (h : r ∈ search_results pages query) : 0 < r.score := by
  rcases List.mem_filterMap.mp h with ⟨page, _, heq⟩
  exact (score_entry_shape page query r heq).2.2.2

theorem mem_insDesc (x z : SearchResult) (l : List SearchResult)
    (h : z ∈ insDesc x l) : z = x ∨ z ∈ l :=
  List.mem_cons.mp ((insDesc_perm x l).mem_iff.mp h)

theorem insDesc_pairwise (x : SearchResult) :
    ∀ l, List.Pairwise (fun a b => b.score ≤ a.score) l →
      List.Pairwise (fun a b => b.score ≤ a.score) (insDesc x l)
  | [], _ => List.pairwise_singleton _ _
  | y :: ys, hp => by
    rcases List.pairwise_cons.mp hp with ⟨hy, hys⟩
    unfold insDesc
    split
    · rename_i hlt
      refine List.pairwise_cons.mpr ⟨?_, insDesc_pairwise x ys hys⟩
      intro z hz
      rcases mem_insDesc x z ys hz with rfl | hz'
      · exact Nat.le_of_lt hlt
      · exact hy z hz'
    · rename_i hnlt
      refine List.pairwise_cons.mpr ⟨?_, hp⟩
      intro z hz
      rcases List.mem_cons.mp hz with rfl | hz'
      · exact Nat.le_of_not_lt hnlt
      · exact Nat.le_trans (hy z hz') (Nat.le_of_not_lt hnlt)

theorem pySortDesc_pairwise :
    ∀ l, List.Pairwise (fun a b => b.score ≤ a.score) (pySortDesc l)
  | [] => List.Pairwise.nil
  | x :: rest => insDesc_pairwise x (pySortDesc rest) (pySortDesc_pairwise rest)

theorem filter_insDesc (s : Nat) (x : SearchResult) : ∀ l,
    (insDesc x l).filter (fun r => decide (r.score = s)) =
      if x.score = s then x :: l.filter (fun r => decide (r.score = s))
      else l.filter (fun r => decide (r.score = s))
  | [] => by
    by_cases hx : x.score = s <;> simp [insDesc, List.filter_cons, hx]
  | y :: ys => by
    unfold insDesc
    split
    · rename_i hlt
      by_cases hy : y.score = s
      · have hx : ¬ x.score = s := by omega
        simp [List.filter_cons, hy, hx, filter_insDesc s x ys]
      · simp only [List.filter_cons, hy, decide_false_eq_false]
        rw [filter_insDesc s x ys]
        by_cases hx : x.score = s <;> simp [hx, hy]
    · by_cases hx : x.score = s <;> by_cases hy : y.score = s <;>
        simp [List.filter_cons, hx, hy]

theorem filter_pySortDesc (s : Nat) : ∀ l,
    (pySortDesc l).filter (fun r => decide (r.score = s)) =
      l.filter (fun r => decide (r.score = s))
  | [] => rfl
  | x :: rest => by
    show (insDesc x (pySortDesc rest)).filter _ = _
    rw [filter_insDesc s x (pySortDesc rest), filter_pySortDesc s rest]
    by_cases hx : x.score = s <;> simp [List.filter_cons, hx]

theorem filter_take_isPrefix {α : Type} (p : α → Bool) (n : Nat) (l : List α) :
    (l.take n).filter p <+: l.filter p :=
  ⟨(l.drop n).filter p, by rw [← List.filter_append, List.take_append_drop]⟩

/-- C3: the ranker output contains no result with score 0 (so none with
score ≤ 0), has length at most the requested limit, is sorted
non-increasing by score, and — stability — for every score value the
results carrying it appear as a prefix of the score-filtered unsorted
result list, which is in cache iteration order. -/
theorem c3_rank_properties (pages : List Page) (query : List Char) (limit : Nat) :
    (∀ r ∈ search pages query limit, 0 < r.score) ∧
    (search pages query limit).length ≤ limit ∧
    List.Pairwise (fun a b => b.score ≤ a.score) (search pages query limit) ∧
    ∀ s : Nat,
      (search pages query limit).filter (fun r => decide (r.score = s)) <+:
        (search_results pages query).filter (fun r => decide (r.score = s)) := by
  refine ⟨?_, ?_, ?_, ?_⟩
  · intro r h
    exact search_results_score_pos pages query r
      (mem_results_of_mem_search pages query limit r h)
  · exact List.length_take_le _ _
  · exact (pySortDesc_pairwise (search_results pages query)).sublist
      (List.take_sublist _ _)
  · intro s
    have h := filter_take_isPrefix (fun r => decide (r.score = s)) limit
      (pySortDesc (search_results pages query))
    rwa [filter_pySortDesc] at h

/-- Witness for `c3_rank_properties` on a concrete two-page cache. -/
theorem c3_rank_properties_witness :
    0 < (⟨"u".data, "t".data, 5, 1, [("red".data, 1), ("door".data, 1)],
        some "anomaly red door".data⟩ : SearchResult).score ∧
    (search [(⟨"u".data, "t".data, "anomaly red door".data⟩ : Page),
        ⟨"v".data, "s".data, "nothing here".data⟩] "red door".data 10).length ≤ 10 :=
  ⟨(c3_rank_properties
      [⟨"u".data, "t".data, "anomaly red door".data⟩,
        ⟨"v".data, "s".data, "nothing here".data⟩] "red door".data 10).1
      ⟨"u".data, "t".data, 5, 1, [("red".data, 1), ("door".data, 1)],
        some "anomaly red door".data⟩ (by decide),
    (c3_rank_properties
      [⟨"u".data, "t".data, "anomaly red door".data⟩,
        ⟨"v".data, "s".data, "nothing here".data⟩] "red door".data 10).2.1⟩

theorem crawl_fold_lookup_none (net : List Char → Option HNode) (u : List Char)
    (hnet : net u = none) :
    ∀ (us : List (List Char)) (pc : List (List Char × Page)),
      lookupD pc u = none → lookupD (us.foldl (crawl_step net) pc) u = none
  | [], _, h => h
  | v :: vs, pc, h => by
    rw [List.foldl_cons]
    refine crawl_fold_lookup_none net u hnet vs _ ?_
    unfold crawl_step
    cases hv : net v with
    | none => exact h
    | some doc =>
      have hvu : u ≠ v := by
        intro he
        rw [he, hv] at hnet
        cases hnet
      rw [lookupD_dictInsert_ne _ _ _ _ hvu]
      exact h

/-- C5: a crawl dispatches a worker — hence a fetch — only for URLs
absent from the cache (so a cached URL is never fetched again and a
re-crawl of an overlapping list is a no-op for its cached URLs), and a
URL whose fetch fails is skipped silently: it stays absent from the cache
and remains eligible (in `to_get`) for a later crawl over the updated
cache.  The last conjunct pins the failure modes: `fetch` yields text only
for a 200 response with a non-empty body, and `none` — the skipped case —
for a transport error, any other status, or an empty result.  The crawl
is a total function of the fetch outcomes, so no failure propagates. -/
theorem c5_crawl_fetch_discipline (net : List Char → Option HNode)
    (urls : List (List Char)) (cache : List (List Char × Page)) :
    (∀ u ∈ crawl_to_get urls cache, lookupD cache u = none) ∧
    (∀ u, (lookupD cache u).isSome → u ∉ crawl_to_get urls cache) ∧
    (∀ u, lookupD cache u = none → net u = none →
      lookupD (crawl_pages net urls cache) u = none) ∧
    (∀ u, u ∈ urls → lookupD cache u = none → net u = none →
      u ∈ crawl_to_get urls (crawl_pages net urls cache)) ∧
    (fetch none = none ∧ ∀ status text,
      fetch (some (status, text)) = some text ↔ (status = 200 ∧ text ≠ [])) := by
  refine ⟨?_, ?_, ?_, ?_, ?_⟩
  · intro u hu
    have h := (List.mem_filter.mp hu).2
    exact Option.isNone_iff_eq_none.mp (by simpa using h)
  · intro u hs hu
    have h := (List.mem_filter.mp hu).2
    have h2 : lookupD cache u = none := Option.isNone_iff_eq_none.mp (by simpa using h)
    rw [h2] at hs
    simp at hs
  · intro u hnone hnet
    exact crawl_fold_lookup_none net u hnet (crawl_to_get urls cache) cache hnone
  · intro u hmem hnone hnet
    apply List.mem_filter.mpr
    refine ⟨hmem, ?_⟩
    have h : lookupD (crawl_pages net urls cache) u = none :=
      crawl_fold_lookup_none net u hnet (crawl_to_get urls cache) cache hnone
    simp [h]
  · refine ⟨rfl, ?_⟩
    intro status text
    constructor
    · intro h
      have h' : (if status = 200 ∧ text ≠ [] then some text
          else (none : Option (List Char))) = some text := h
      by_cases hc : status = 200 ∧ text ≠ []
      · exact hc
      · rw [if_neg hc] at h'
        cases h'
    · intro hc
      show (if status = 200 ∧ text ≠ [] then some text
        else (none : Option (List Char))) = some text
      rw [if_pos hc]

/-- Witness for `c5_crawl_fetch_discipline`: a cache holding `a`, a crawl
over `[a, b]` whose fetch of `b` fails; only `b` is dispatched and `b`
stays absent. -/
theorem c5_crawl_fetch_discipline_witness :
    lookupD (crawl_pages
        (fun u => if u = "b".data then none else some (.txt "hi".data))
        ["a".data, "b".data]
        [("a".data, ⟨"a".data, [], "hi".data⟩)]) "b".data = none :=
  (c5_crawl_fetch_discipline
      (fun u => if u = "b".data then none else some (.txt "hi".data))
      ["a".data, "b".data]
      [("a".data, ⟨"a".data, [], "hi".data⟩)]).2.2.1 "b".data (by decide) (by rfl)

theorem crawl_fold_key_value (net : List Char → Option HNode) :
    ∀ (us : List (List Char)) (pc : List (List Char × Page)),
      (∀ kv ∈ pc, kv.2.url = kv.1) →
      ∀ kv ∈ us.foldl (crawl_step net) pc, kv.2.url = kv.1
  | [], _, h => h
  | v :: vs, pc, h => by
    rw [List.foldl_cons]
    refine crawl_fold_key_value net vs _ ?_
    intro kv hkv
    unfold crawl_step at hkv
    cases hv : net v with
    | none =>
      rw [hv] at hkv
      exact h kv hkv
    | some doc =>
      rw [hv] at hkv
      rcases mem_dictInsert _ _ _ _ hkv with hin | heq
      · exact h kv hin
      · rw [heq]

/-- C10: every entry the crawler inserts satisfies key/value agreement —
the stored page's `url` field equals its cache key — and the property is
preserved from any cache state satisfying it, so it holds in every cache
state reachable through `crawl_pages`, the only mutator of the page
cache on the core path. -/
theorem c10_key_value_agreement (net : List Char → Option HNode)
    (urls : List (List Char)) (cache : List (List Char × Page))
    (h : ∀ kv ∈ cache, kv.2.url = kv.1) :
    ∀ kv ∈ crawl_pages net urls cache, kv.2.url = kv.1 :=
  crawl_fold_key_value net (crawl_to_get urls cache) cache h

/-- Witness for `c10_key_value_agreement`: crawling one URL into the
empty cache yields the entry keyed by that URL whose page carries the
same URL. -/
theorem c10_key_value_agreement_witness :
    (("u".data, (⟨"u".data, [], "hi".data⟩ : Page)) :
        List Char × Page).2.url =
      (("u".data, (⟨"u".data, [], "hi".data⟩ : Page)) : List Char × Page).1 :=
  c10_key_value_agreement (fun _ => some (.txt "hi".data)) ["u".data] []
    (by simp) ("u".data, ⟨"u".data, [], "hi".data⟩) (by decide)

/-- C4 (code bug): the memoization never takes effect.  `build_seed_links`
assigns `links_cache` and `links_initialized = True` to local names only,
so the module-level `_links_initialized` stays false forever; therefore
the `/search` guard fires on the first call AND on every later call: the
state after a search still has `links_initialized = false`, its link cache
still empty, the implicit bootstrap crawl runs again, and
`build_seed_links` re-fetches the full index list every time instead of
memoizing. -/
theorem c4_bootstrap_never_memoized :
    bootstrapRuns initState = true ∧
    (∀ (net : List Char → Option HNode) (seriesDocs : List (Option HNode))
      (query : List Char) (limit : Nat),
      (search_endpoint net seriesDocs initState query limit).2.links_initialized
          = false ∧
      (search_endpoint net seriesDocs initState query limit).2.links_cache = [] ∧
      bootstrapRuns (search_endpoint net seriesDocs initState query limit).2
          = true) ∧
    build_seed_fetch_urls [] false = SERIES_INDEX_URLS ∧
    SERIES_INDEX_URLS.length = 3 := by
  refine ⟨rfl, ?_, rfl, rfl⟩
  intro net seriesDocs query limit
  refine ⟨rfl, rfl, rfl⟩

/-- C9: in every state reachable during a crawl of `N` URLs with
concurrency ceiling `C`, at most `C` workers hold the semaphore, so at
most `C` fetches are in flight; in particular the source's ceiling is
`CONCURRENCY = 8`. -/
theorem c9_inflight_bounded (C N : Nat) (s : CrawlSched) (h : CrawlReach C N s) :
    s.inflight ≤ C ∧ CONCURRENCY = 8 := by
  refine ⟨?_, rfl⟩
  induction h with
  | refl => exact Nat.zero_le C
  | tail _ step ih =>
    cases step with
    | start p i d hi => exact hi
    | finish p i d => simpa using Nat.le_of_succ_le (Nat.succ_le_of_lt (Nat.lt_of_lt_of_le (Nat.lt_succ_self i) (by simpa using ih)))

/-- Witness for `c9_inflight_bounded`: after one worker of a five-URL
crawl enters the semaphore, one fetch is in flight, within the ceiling. -/
theorem c9_inflight_bounded_witness :
    (⟨4, 1, 0⟩ : CrawlSched).inflight ≤ CONCURRENCY ∧ CONCURRENCY = 8 :=
  c9_inflight_bounded CONCURRENCY 5 ⟨4, 1, 0⟩
    (Relation.ReflTransGen.single (CrawlStep.start 4 0 0 (by decide)))

theorem scpUrlMatch_chars (u : List Char) (hm : scpUrlMatch u = true) :
    ∀ c ∈ u, c ∈ scpPrefix ∨ c.isDigit = true := by
  unfold scpUrlMatch at hm
  rw [Bool.and_eq_true] at hm
  rcases hm with ⟨hp, hrest⟩
  rcases List.isPrefixOf_iff_prefix.mp hp with ⟨t, ht⟩
  subst ht
  rw [List.drop_left] at hrest
  intro c hc
  rcases List.mem_append.mp hc with h | h
  · exact Or.inl h
  · right
    simp only [Bool.and_eq_true, List.all_eq_true] at hrest
    exact hrest.1.1.2 c h

theorem scpUrlMatch_no_question (u : List Char) (hm : scpUrlMatch u = true) :
    '?' ∉ u := by
  intro hq
  rcases scpUrlMatch_chars u hm '?' hq with h | h
  · revert h
    decide
  · revert h
    decide

theorem scpUrlMatch_last_digit (u : List Char) (hm : scpUrlMatch u = true) :
    ∃ c, u.getLast? = some c ∧ c.isDigit = true := by
  unfold scpUrlMatch at hm
  rw [Bool.and_eq_true] at hm
  rcases hm with ⟨hp, hrest⟩
  rcases List.isPrefixOf_iff_prefix.mp hp with ⟨t, ht⟩
  subst ht
  rw [List.drop_left] at hrest
  simp only [Bool.and_eq_true, List.all_eq_true, Bool.not_eq_true',
    List.isEmpty_eq_false_iff_exists_mem] at hrest
  have hne : t ≠ [] := by
    rcases hrest.1.1.1 with ⟨x, hx⟩
    intro h
    rw [h] at hx
    cases hx
  rcases List.getLast?_eq_some_iff.mpr
    (⟨t.dropLast, (List.dropLast_append_getLast hne).symm⟩ :
      ∃ ys, t = ys ++ [t.getLast hne]) with hlast
  refine ⟨t.getLast hne, ?_, ?_⟩
  · rw [List.getLast?_append, hlast]
    rfl
  · exact hrest.1.1.2 _ (List.getLast_mem hne)

theorem canonURL_of_match (u : List Char) (hm : scpUrlMatch u = true) :
    canonURL u = u := by
  unfold canonURL
  have htw : u.takeWhile (fun c => decide (c ≠ '?')) = u := by
    rw [List.takeWhile_eq_self_iff]
    intro a ha
    simp only [decide_eq_true_eq]
    intro he
    exact scpUrlMatch_no_question u hm (he ▸ ha)
  rcases scpUrlMatch_last_digit u hm with ⟨c, hc, hd⟩
  have hslash : ¬ u.getLast? = some '/' := by
    rw [hc]
    intro h
    cases Option.some.inj h
    revert hd
    decide
  simp only [htw, if_neg hslash]

theorem mem_insLex (x z : List Char) :
    ∀ l, z ∈ insLex x l → z = x ∨ z ∈ l
  | [], h => by
    rcases List.mem_singleton.mp (by simpa [insLex] using h) with h
    exact Or.inl h
  | y :: ys, h => by
    unfold insLex at h
    split at h
    · rcases List.mem_cons.mp h with h | h
      · exact Or.inl h
      · exact Or.inr h
    · rcases List.mem_cons.mp h with h | h
      · exact Or.inr (h ▸ List.mem_cons_self _ _)
      · rcases mem_insLex x z ys h with h | h
        · exact Or.inl h
        · exact Or.inr (List.mem_cons_of_mem _ h)

theorem mem_sortLex (z : List Char) : ∀ l, z ∈ sortLex l → z ∈ l
  | [], h => absurd h (List.not_mem_nil z)
  | x :: rest, h => by
    unfold sortLex at h
    rcases mem_insLex x z (sortLex rest) h with h | h
    · exact h ▸ List.mem_cons_self _ _
    · exact List.mem_cons_of_mem _ (mem_sortLex z rest h)

theorem mem_dedup (z : List Char) : ∀ l, z ∈ dedup l → z ∈ l
  | [], h => absurd h (List.not_mem_nil z)
  | x :: rest, h => by
    unfold dedup at h
    split at h
    · exact List.mem_cons_of_mem _ (mem_dedup z rest h)
    · rcases List.mem_cons.mp h with h | h
      · exact h ▸ List.mem_cons_self _ _
      · exact List.mem_cons_of_mem _ (mem_dedup z rest h)

theorem extract_links_match (doc : HNode) :
    ∀ u ∈ extract_links_from_series doc, scpUrlMatch u = true := by
  intro u hu
  have h1 := mem_dedup u _ (mem_sortLex u _ hu)
  exact (List.mem_filter.mp h1).2

theorem crawl_fold_keys_match (net : List Char → Option HNode) :
    ∀ (us : List (List Char)) (pc : List (List Char × Page)),
      (∀ u ∈ us, scpUrlMatch u = true) →
      (∀ kv ∈ pc, scpUrlMatch kv.1 = true) →
      ∀ kv ∈ us.foldl (crawl_step net) pc, scpUrlMatch kv.1 = true
  | [], _, _, h => h
  | v :: vs, pc, hus, h => by
    rw [List.foldl_cons]
    refine crawl_fold_keys_match net vs _
      (fun u hu => hus u (List.mem_cons_of_mem _ hu)) ?_
    intro kv hkv
    unfold crawl_step at hkv
    cases hv : net v with
    | none =>
      rw [hv] at hkv
      exact h kv hkv
    | some doc =>
      rw [hv] at hkv
      rcases mem_dictInsert _ _ _ _ hkv with hin | heq
      · exact h kv hin
      · rw [heq]
        exact hus v (List.mem_cons_self _ _)

/-- C8, amended: `crawl_pages` performs no URL normalization — it inserts
keys verbatim — but on the service's own call path every crawled URL
comes from `extract_links_from_series`, whose pattern
`^https://scp-wiki\.wikidot\.com/scp-\d{3,4}$` admits neither a query
string nor a trailing slash; therefore in every state reachable through
that path all cache keys match the pattern, and two distinct
pattern-matching keys can never be query-string or trailing-slash
variants of the same canonical URL. -/
theorem c8_no_variant_keys_on_core_path :
    (∀ doc, ∀ u ∈ extract_links_from_series doc, scpUrlMatch u = true) ∧
    (∀ (net : List Char → Option HNode) (urls : List (List Char))
      (cache : List (List Char × Page)),
      (∀ u ∈ urls, scpUrlMatch u = true) →
      (∀ kv ∈ cache, scpUrlMatch kv.1 = true) →
      ∀ kv ∈ crawl_pages net urls cache, scpUrlMatch kv.1 = true) ∧
    (∀ u v : List Char, scpUrlMatch u = true → scpUrlMatch v = true →
      u ≠ v → canonURL u ≠ canonURL v) := by
  refine ⟨extract_links_match, ?_, ?_⟩
  · intro net urls cache hurls hcache
    exact crawl_fold_keys_match net (crawl_to_get urls cache) cache
      (fun u hu => hurls u (List.mem_of_mem_filter hu)) hcache
  · intro u v hu hv hne
    rw [canonURL_of_match u hu, canonURL_of_match v hv]
    exact hne

/-- Witness for `c8_no_variant_keys_on_core_path` at two concrete
pattern-matching URLs. -/
theorem c8_no_variant_keys_on_core_path_witness :
    canonURL "https://scp-wiki.wikidot.com/scp-173".data ≠
      canonURL "https://scp-wiki.wikidot.com/scp-002".data :=
  c8_no_variant_keys_on_core_path.2.2
    "https://scp-wiki.wikidot.com/scp-173".data
    "https://scp-wiki.wikidot.com/scp-002".data
    (by decide) (by decide) (by decide)

/-- C8 counterexample: `crawl_pages` does not normalize URLs before
insert — crawling a URL list containing a query-string variant stores
both keys verbatim, so the cache then holds two entries that differ only
by query string (equal canonical forms). -/
theorem c8_counterexample :
    (crawl_pages (fun _ => some (.txt "x".data))
        ["https://scp-wiki.wikidot.com/scp-173".data,
         "https://scp-wiki.wikidot.com/scp-173?x=1".data] []).map Prod.fst =
      ["https://scp-wiki.wikidot.com/scp-173".data,
       "https://scp-wiki.wikidot.com/scp-173?x=1".data] ∧
    "https://scp-wiki.wikidot.com/scp-173".data ≠
      "https://scp-wiki.wikidot.com/scp-173?x=1".data ∧
    canonURL "https://scp-wiki.wikidot.com/scp-173".data =
      canonURL "https://scp-wiki.wikidot.com/scp-173?x=1".data := by decide

theorem findIdx_eq_none_iff (pat : List Char) :
    ∀ s, findIdx s pat = none ↔ ∀ i, ¬ pat.isPrefixOf (s.drop i) = true
  | [] => by
    unfold findIdx
    split
    · rename_i hp
      constructor
      · intro h
        cases h
      · intro h
        exact absurd hp (by simpa using h 0)
    · rename_i hp
      constructor
      · intro _ i
        simpa [List.drop_nil] using hp
      · intro _
        rfl
  | c :: rest => by
    unfold findIdx
    split
    · rename_i hp
      constructor
      · intro h
        cases h
      · intro h
        exact absurd hp (by simpa using h 0)
    · rename_i hp
      constructor
      · intro h i
        have hr : findIdx rest pat = none := by
          cases hf : findIdx rest pat with
          | none => rfl
          | some j => rw [hf] at h; cases h
        match i with
        | 0 => simpa using hp
        | j + 1 => exact ((findIdx_eq_none_iff pat rest).mp hr) j
      · intro h
        have hr : findIdx rest pat = none :=
          (findIdx_eq_none_iff pat rest).mpr (fun j => h (j + 1))
        rw [hr]
        rfl

theorem findIdx_spec (pat : List Char) :
    ∀ s i, findIdx s pat = some i →
      pat.isPrefixOf (s.drop i) = true ∧ i ≤ s.length ∧
      ∀ j, j < i → ¬ pat.isPrefixOf (s.drop j) = true
  | [], i, h => by
    unfold findIdx at h
    split at h
    · rename_i hp
      cases Option.some.inj h
      exact ⟨by simpa using hp, Nat.le_refl 0, fun j hj => absurd hj (Nat.not_lt_zero j)⟩
    · cases h
  | c :: rest, i, h => by
    unfold findIdx at h
    split at h
    · rename_i hp
      cases Option.some.inj h
      exact ⟨by simpa using hp, Nat.zero_le _, fun j hj => absurd hj (Nat.not_lt_zero j)⟩
    · rename_i hp
      cases hf : findIdx rest pat with
      | none =>
        rw [hf] at h
        cases h
      | some i0 =>
        rw [hf] at h
        cases Option.some.inj h
        rcases findIdx_spec pat rest i0 hf with ⟨h1, h2, h3⟩
        refine ⟨by simpa using h1, by simpa using Nat.succ_le_succ h2, ?_⟩
        intro j hj
        match j with
        | 0 => simpa using hp
        | j' + 1 => exact h3 j' (Nat.lt_of_succ_lt_succ hj)

theorem firstFound_eq_none_iff (low : List Char) :
    ∀ ps, firstFound low ps = none ↔ ∀ p ∈ ps, findIdx low p = none
  | [] => by
    constructor
    · intro _ p hp
      exact absurd hp (List.not_mem_nil p)
    · intro _
      rfl
  | p :: rest => by
    unfold firstFound
    cases hf : findIdx low p with
    | some j =>
      constructor
      · intro h
        cases h
      · intro h
        exact absurd (h p (List.mem_cons_self _ _)) (by simp [hf])
    | none =>
      constructor
      · intro h q hq
        rcases List.mem_cons.mp hq with rfl | hq'
        · exact hf
        · exact ((firstFound_eq_none_iff low rest).mp h) q hq'
      · intro h
        exact (firstFound_eq_none_iff low rest).mpr
          (fun q hq => h q (List.mem_cons_of_mem _ hq))

theorem firstFound_spec (low : List Char) :
    ∀ ps i, firstFound low ps = some i →
      ∃ ps1 p ps2, ps = ps1 ++ p :: ps2 ∧
        (∀ q ∈ ps1, findIdx low q = none) ∧ findIdx low p = some i
  | [], i, h => by cases h
  | p :: rest, i, h => by
    unfold firstFound at h
    cases hf : findIdx low p with
    | some j =>
      rw [hf] at h
      cases Option.some.inj h
      exact ⟨[], p, rest, rfl, fun q hq => absurd hq (List.not_mem_nil q), hf⟩
    | none =>
      rw [hf] at h
      rcases firstFound_spec low rest i h with ⟨ps1, q, ps2, heq, hall, hq⟩
      refine ⟨p :: ps1, q, ps2, by rw [heq, List.cons_append], ?_, hq⟩
      intro q' hq'
      rcases List.mem_cons.mp hq' with rfl | hq''
      · exact hf
      · exact hall q' hq''

theorem tokensAux_length_le :
    ∀ (s cur t : List Char), t ∈ tokensAux s cur → t.length ≤ s.length + cur.length
  | [], cur, t, h => by
    unfold tokensAux at h
    split at h
    · exact absurd h (List.not_mem_nil t)
    · rcases List.mem_singleton.mp h with rfl
      simp
  | c :: rest, cur, t, h => by
    unfold tokensAux at h
    split at h
    · have := tokensAux_length_le rest (c :: cur) t h
      simp only [List.length_cons] at this ⊢
      omega
    · split at h
      · have := tokensAux_length_le rest [] t h
        simp only [List.length_cons, List.length_nil] at this ⊢
        omega
      · rcases List.mem_cons.mp h with rfl | h'
        · simp only [List.length_reverse, List.length_cons]
          omega
        · have := tokensAux_length_le rest [] t h'
          simp only [List.length_cons, List.length_nil] at this ⊢
          omega

theorem tokenize_length_le (s t : List Char) (h : t ∈ tokenize s) :
    t.length ≤ s.length := by
  rcases List.mem_map.mp h with ⟨t0, ht0, rfl⟩
  have := tokensAux_length_le s [] t0 ht0
  simpa [pyLower] using this

theorem newline_not_mem_snipCore (text query : List Char) (ml i : Nat) :
    '\n' ∉ snipCore text query ml i := by
  unfold snipCore
  intro h
  rcases List.mem_map.mp h with ⟨c, _, hc⟩
  by_cases hcn : c = '\n'
  · rw [if_pos hcn] at hc
    exact absurd hc (by decide)
  · rw [if_neg hcn] at hc
    exact hcn hc

theorem snipCore_length_le (text query : List Char) (ml i : Nat) :
    (snipCore text query ml i).length ≤ query.length + 2 * (ml / 3) := by
  unfold snipCore
  simp only [List.length_map, List.length_take, List.length_drop]
  have h1 : min text.length (i + query.length + ml / 3) ≤
      i + query.length + ml / 3 := Nat.min_le_right _ _
  omega

theorem snippet_idx_spec (text query : List Char) (i : Nat)
    (h : snippet_idx text query = some i) :
    ∃ pat, (pat = pyLower query ∨ pat ∈ qualTerms query) ∧
      pat.isPrefixOf ((pyLower text).drop i) = true ∧
      i ≤ text.length ∧ pat.length ≤ query.length ∧
      ∀ j, j < i → ¬ pat.isPrefixOf ((pyLower text).drop j) = true := by
  unfold snippet_idx at h
  cases hf : findIdx (pyLower text) (pyLower query) with
  | some i0 =>
    rw [hf] at h
    cases Option.some.inj h
    rcases findIdx_spec (pyLower query) (pyLower text) i hf with ⟨h1, h2, h3⟩
    exact ⟨pyLower query, Or.inl rfl, h1, by simpa [pyLower] using h2,
      by simp [pyLower], h3⟩
  | none =>
    rw [hf] at h
    rcases firstFound_spec (pyLower text) (qualTerms query) i h
      with ⟨ps1, p, ps2, heq, _, hp⟩
    have hpmem : p ∈ qualTerms query := by
      rw [heq]
      exact List.mem_append.mpr (Or.inr (List.mem_cons_self _ _))
    rcases findIdx_spec p (pyLower text) i hp with ⟨h1, h2, h3⟩
    have hplen : p.length ≤ query.length :=
      tokenize_length_le query p (List.mem_of_mem_filter hpmem)
    exact ⟨p, Or.inr hpmem, h1, by simpa [pyLower] using h2, hplen, h3⟩

/-- C7, amended: the snippet is absent exactly when neither the lowered
full query nor any qualifying term occurs in the lowered text; a present
snippet has its newlines replaced by spaces, is the window around the
first match of the first pattern found (full query first, then qualifying
terms in tokenized order, each located at its earliest position), the
window covers that match, and an ellipsis is APPENDED exactly when the
window stops before the end of the text (the window text itself may
coincidentally end in an ellipsis character).  The length is bounded by
`query.length + 2*(max_len/3) + 1` — not by `max_len` itself, which the
code can exceed for long queries. -/
theorem c7_snippet_spec (text query : List Char) (ml : Nat) :
    (make_snippet text query ml = none ↔
      ((∀ j, ¬ (pyLower query).isPrefixOf ((pyLower text).drop j) = true) ∧
       (∀ p ∈ qualTerms query, ∀ j,
          ¬ p.isPrefixOf ((pyLower text).drop j) = true))) ∧
    (∀ s, make_snippet text query ml = some s →
      '\n' ∉ s ∧
      s.length ≤ query.length + 2 * (ml / 3) + 1 ∧
      ∃ i pat,
        snippet_idx text query = some i ∧
        (pat = pyLower query ∨ pat ∈ qualTerms query) ∧
        pat.isPrefixOf ((pyLower text).drop i) = true ∧
        (∀ j, j < i → ¬ pat.isPrefixOf ((pyLower text).drop j) = true) ∧
        i - ml / 3 ≤ i ∧
        i + pat.length ≤ min text.length (i + query.length + ml / 3) ∧
        s = snipCore text query ml i ++
          (if min text.length (i + query.length + ml / 3) < text.length
           then ['…'] else [])) := by
  constructor
  · have hms : make_snippet text query ml = none ↔
        snippet_idx text query = none := by
      unfold make_snippet
      cases hidx : snippet_idx text query with
      | none => simp
      | some i => simp
    have hsi : snippet_idx text query = none ↔
        (findIdx (pyLower text) (pyLower query) = none ∧
         firstFound (pyLower text) (qualTerms query) = none) := by
      unfold snippet_idx
      cases hf : findIdx (pyLower text) (pyLower query) with
      | none => simp
      | some i => simp
    rw [hms, hsi, findIdx_eq_none_iff, firstFound_eq_none_iff]
    constructor
    · intro ⟨h1, h2⟩
      exact ⟨h1, fun p hp j => (findIdx_eq_none_iff p (pyLower text)).mp (h2 p hp) j⟩
    · intro ⟨h1, h2⟩
      exact ⟨h1, fun p hp => (findIdx_eq_none_iff p (pyLower text)).mpr (h2 p hp)⟩
  · intro s hs
    unfold make_snippet at hs
    cases hidx : snippet_idx text query with
    | none =>
      rw [hidx] at hs
      cases hs
    | some i =>
      rw [hidx] at hs
      cases Option.some.inj hs
      refine ⟨?_, ?_, i, ?_⟩
      · intro hmem
        rcases List.mem_append.mp hmem with h | h
        · exact newline_not_mem_snipCore text query ml i h
        · revert h
          split
          · intro h
            rcases List.mem_singleton.mp h with h
            cases h
          · intro h
            exact absurd h (List.not_mem_nil _)
      · rw [List.length_append]
        have h1 := snipCore_length_le text query ml i
        have h2 : (if min text.length (i + query.length + ml / 3) < text.length
            then ['…'] else ([] : List Char)).length ≤ 1 := by
          split <;> simp
        omega
      · rcases snippet_idx_spec text query i hidx with
          ⟨pat, hpq, hpre, hile, hplen, hmin⟩
        refine ⟨pat, rfl, hpq, hpre, hmin, Nat.sub_le i (ml / 3), ?_, rfl⟩
        rcases List.isPrefixOf_iff_prefix.mp hpre with ⟨t, ht⟩
        have hlen := congrArg List.length ht
        rw [List.length_append, List.length_drop] at hlen
        have hlow : (pyLower text).length = text.length := by simp [pyLower]
        rw [hlow] at hlen
        refine Nat.le_min.mpr ⟨?_, ?_⟩
        · omega
        · omega

/-- Witness for `c7_snippet_spec` on the specification's own example:
text `the quick brown fox jumps`, query `brown fox`, default budget. -/
theorem c7_snippet_spec_witness :
    '\n' ∉ "the quick brown fox jumps".data ∧
    ("the quick brown fox jumps".data).length ≤
      ("brown fox".data).length + 2 * (240 / 3) + 1 ∧
    ∃ i pat,
      snippet_idx "the quick brown fox jumps".data "brown fox".data = some i ∧
      (pat = pyLower "brown fox".data ∨ pat ∈ qualTerms "brown fox".data) ∧
      pat.isPrefixOf ((pyLower "the quick brown fox jumps".data).drop i) = true ∧
      (∀ j, j < i →
        ¬ pat.isPrefixOf ((pyLower "the quick brown fox jumps".data).drop j)
            = true) ∧
      i - 240 / 3 ≤ i ∧
      i + pat.length ≤ min ("the quick brown fox jumps".data).length
        (i + ("brown fox".data).length + 240 / 3) ∧
      "the quick brown fox jumps".data =
        snipCore "the quick brown fox jumps".data "brown fox".data 240 i ++
          (if min ("the quick brown fox jumps".data).length
              (i + ("brown fox".data).length + 240 / 3) <
              ("the quick brown fox jumps".data).length
           then ['…'] else []) :=
  (c7_snippet_spec "the quick brown fox jumps".data "brown fox".data 240).2
    "the quick brown fox jumps".data (by decide)

/-- C7 counterexample: with budget `max_len = 9` and the ten-character
query `bbbbbbbbbb` found at index 0 of the eleven-character text
`bbbbbbbbbb…`, the snippet is the whole text: its length 11 exceeds the
budget 9, and it ends with an ellipsis character even though the window
reached the end of the text (the `end < len(text)` marker condition is
false), refuting both the length-budget conjunct and the
ellipsis-iff-truncated conjunct of the claim. -/
theorem c7_counterexample :
    make_snippet "bbbbbbbbbb…".data "bbbbbbbbbb".data 9 =
      some "bbbbbbbbbb…".data ∧
    ("bbbbbbbbbb…".data).length = 11 ∧
    ¬ ("bbbbbbbbbb…".data).length ≤ 9 ∧
    ("bbbbbbbbbb…".data).getLast? = some '…' ∧
    min ("bbbbbbbbbb…".data).length
        (0 + ("bbbbbbbbbb".data).length + 9 / 3) =
      ("bbbbbbbbbb…".data).length ∧
    snippet_idx "bbbbbbbbbb…".data "bbbbbbbbbb".data = some 0 := by decide

theorem isChrome_stripChrome (n : HNode) : isChrome (stripChrome n) = isChrome n := by
  cases n <;> rfl

mutual
theorem hasChromeDesc_stripChrome :
    ∀ n : HNode, hasChromeDesc (stripChrome n) = false
  | .txt _ => rfl
  | .elem t i c h ch => by
    show hasChromeDescList (stripChromeList ch) = false
    exact hasChromeDescList_stripChromeList ch

theorem hasChromeDescList_stripChromeList :
    ∀ l : List HNode, hasChromeDescList (stripChromeList l) = false
  | [] => rfl
  | n :: rest => by
    unfold stripChromeList
    split
    · exact hasChromeDescList_stripChromeList rest
    · rename_i hnc
      show (isChrome (stripChrome n) || hasChromeDesc (stripChrome n) ||
        hasChromeDescList (stripChromeList rest)) = false
      rw [isChrome_stripChrome, hasChromeDesc_stripChrome n,
        hasChromeDescList_stripChromeList rest]
      simp [hnc]
end

theorem normEOL_no_cr : ∀ s : List Char, '\r' ∉ normEOL s
  | [] => by simp [normEOL]
  | c :: rest => by
    by_cases hc : c = '\r'
    · subst hc
      cases rest with
      | nil =>
        show '\r' ∉ normEOL ['\r']
        decide
      | cons c2 rest2 =>
        by_cases hc2 : c2 = '\n'
        · subst hc2
          have hred : normEOL ('\r' :: '\n' :: rest2) = '\n' :: normEOL rest2 := by
            simp [normEOL]
          rw [hred]
          intro hmem
          rcases List.mem_cons.mp hmem with h | h
          · exact absurd h (by decide)
          · exact normEOL_no_cr rest2 h
        · have hred : normEOL ('\r' :: c2 :: rest2) =
              '\n' :: normEOL (c2 :: rest2) := by
            simp [normEOL, hc2]
          rw [hred]
          intro hmem
          rcases List.mem_cons.mp hmem with h | h
          · exact absurd h (by decide)
          · exact normEOL_no_cr (c2 :: rest2) h
    · have hred : normEOL (c :: rest) = c :: normEOL rest := by
        conv_lhs => unfold normEOL
        rw [if_neg hc]
      rw [hred]
      intro hmem
      rcases List.mem_cons.mp hmem with h | h
      · exact hc h.symm
      · exact normEOL_no_cr rest h

theorem mem_collapseNLAux :
    ∀ (s : List Char) (n : Nat) (c : Char), c ∈ collapseNLAux s n → c = '\n' ∨ c ∈ s
  | [], n, c, h => by
    unfold collapseNLAux nlEmit at h
    exact Or.inl (List.eq_of_mem_replicate h)
  | d :: rest, n, c, h => by
    unfold collapseNLAux at h
    split at h
    · rcases mem_collapseNLAux rest (n + 1) c h with h | h
      · exact Or.inl h
      · exact Or.inr (List.mem_cons_of_mem _ h)
    · rcases List.mem_append.mp h with h | h
      · unfold nlEmit at h
        exact Or.inl (List.eq_of_mem_replicate h)
      · rcases List.mem_cons.mp h with rfl | h
        · exact Or.inr (List.mem_cons_self _ _)
        · rcases mem_collapseNLAux rest 0 c h with h | h
          · exact Or.inl h
          · exact Or.inr (List.mem_cons_of_mem _ h)

theorem runsOK_nlEmit (m : Nat) (hm : m ≤ 2) :
    runsOK (List.replicate m '\n') 0 = true := by
  interval_cases m <;> decide

theorem runsOK_nlEmit_append (m : Nat) (hm : m ≤ 2) (c : Char) (hc : ¬ c = '\n')
    (l : List Char) (hl : runsOK l 0 = true) :
    runsOK (List.replicate m '\n' ++ c :: l) 0 = true := by
  interval_cases m <;> simp [List.replicate, runsOK, hc, hl]

theorem nlEmit_count_le (n : Nat) : (if 3 ≤ n then 2 else n) ≤ 2 := by
  split <;> omega

theorem collapseNLAux_runsOK : ∀ (s : List Char) (n : Nat),
    runsOK (collapseNLAux s n) 0 = true
  | [], n => by
    unfold collapseNLAux nlEmit
    exact runsOK_nlEmit _ (nlEmit_count_le n)
  | c :: rest, n => by
    unfold collapseNLAux
    split
    · exact collapseNLAux_runsOK rest (n + 1)
    · rename_i hc
      unfold nlEmit
      exact runsOK_nlEmit_append _ (nlEmit_count_le n) c hc _
        (collapseNLAux_runsOK rest 0)

theorem collapseNL_runsOK (s : List Char) : runsOK (collapseNL s) 0 = true :=
  collapseNLAux_runsOK s 0

theorem head_dropWhile_false (p : Char → Bool) (l : List Char) (c : Char)
    (h : (l.dropWhile p).head? = some c) : p c = false := by
  have hx := List.head?_dropWhile_not p l
  rw [h] at hx
  exact hx

theorem mem_pyStrip {c : Char} {s : List Char} (h : c ∈ pyStrip s) : c ∈ s := by
  unfold pyStrip at h
  have h1 := List.mem_reverse.mp h
  have h2 := List.dropWhile_subset _ h1
  have h3 := List.mem_reverse.mp h2
  exact List.dropWhile_subset _ h3

theorem mem_pyRStrip {c : Char} {s : List Char} (h : c ∈ pyRStrip s) : c ∈ s := by
  unfold pyRStrip at h
  have h1 := List.mem_reverse.mp h
  have h2 := List.dropWhile_subset _ h1
  exact List.mem_reverse.mp h2

theorem mem_splitNLAux :
    ∀ (s cur piece : List Char), piece ∈ splitNLAux s cur →
      ∀ c ∈ piece, c ∈ s ∨ c ∈ cur
  | [], cur, piece, h => by
    rcases List.mem_singleton.mp h with rfl
    intro c hc
    exact Or.inr (List.mem_reverse.mp hc)
  | d :: rest, cur, piece, h => by
    unfold splitNLAux at h
    split at h
    · rcases List.mem_cons.mp h with rfl | h'
      · intro c hc
        exact Or.inr (List.mem_reverse.mp hc)
      · intro c hc
        rcases mem_splitNLAux rest [] piece h' c hc with h2 | h2
        · exact Or.inl (List.mem_cons_of_mem _ h2)
        · exact absurd h2 (List.not_mem_nil c)
    · intro c hc
      rcases mem_splitNLAux rest (d :: cur) piece h c hc with h2 | h2
      · exact Or.inl (List.mem_cons_of_mem _ h2)
      · rcases List.mem_cons.mp h2 with rfl | h3
        · exact Or.inl (List.mem_cons_self _ _)
        · exact Or.inr h3

theorem mem_joinNL :
    ∀ (ls : List (List Char)) (c : Char), c ∈ joinNL ls →
      c = '\n' ∨ ∃ piece ∈ ls, c ∈ piece
  | [], c, h => absurd h (List.not_mem_nil c)
  | [l], c, h => Or.inr ⟨l, List.mem_singleton.mpr rfl, by simpa [joinNL] using h⟩
  | l :: l2 :: rest, c, h => by
    have h' : c ∈ l ++ '\n' :: joinNL (l2 :: rest) := h
    rcases List.mem_append.mp h' with h1 | h1
    · exact Or.inr ⟨l, List.mem_cons_self _ _, h1⟩
    · rcases List.mem_cons.mp h1 with rfl | h2
      · exact Or.inl rfl
      · rcases mem_joinNL (l2 :: rest) c h2 with h3 | ⟨piece, hp, hc⟩
        · exact Or.inl h3
        · exact Or.inr ⟨piece, List.mem_cons_of_mem _ hp, hc⟩

theorem mem_rstripLines {c : Char} {s : List Char} (h : c ∈ rstripLines s) :
    c = '\n' ∨ c ∈ s := by
  unfold rstripLines at h
  rcases mem_joinNL _ c h with h1 | ⟨piece, hp, hc⟩
  · exact Or.inl h1
  · rcases List.mem_map.mp hp with ⟨p0, hp0, rfl⟩
    rcases mem_splitNLAux s [] p0 hp0 c (mem_pyRStrip hc) with h2 | h2
    · exact Or.inr h2
    · exact absurd h2 (List.not_mem_nil c)

theorem clean_text_no_cr (s : List Char) : '\r' ∉ clean_text s := by
  intro h
  have h1 := mem_pyStrip h
  rcases mem_rstripLines h1 with h2 | h2
  · exact absurd h2 (by decide)
  · rcases mem_collapseNLAux _ 0 _ h2 with h3 | h3
    · exact absurd h3 (by decide)
    · exact normEOL_no_cr s h3

theorem getLast_of_suffix_some {l1 l2 : List Char} {c : Char}
    (h : l1 <:+ l2) (hl : l1.getLast? = some c) : l2.getLast? = some c := by
  rcases h with ⟨t, rfl⟩
  rw [List.getLast?_append, hl]
  rfl

theorem clean_text_head_not_ws (s : List Char) (c : Char)
    (h : (clean_text s).head? = some c) : isPyWs c = false := by
  unfold clean_text pyStrip at h
  rw [List.head?_reverse] at h
  have h2 : ((rstripLines (collapseNL (normEOL s))).dropWhile
      isPyWs).reverse.getLast? = some c :=
    getLast_of_suffix_some (List.dropWhile_suffix isPyWs) h
  rw [List.getLast?_reverse] at h2
  exact head_dropWhile_false isPyWs _ c h2

theorem clean_text_last_not_ws (s : List Char) (c : Char)
    (h : (clean_text s).getLast? = some c) : isPyWs c = false := by
  unfold clean_text pyStrip at h
  rw [List.getLast?_reverse] at h
  exact head_dropWhile_false isPyWs _ c h

theorem pyRStrip_last_not_ws (l : List Char) (c : Char)
    (h : (pyRStrip l).getLast? = some c) : isPyWs c = false := by
  unfold pyRStrip at h
  rw [List.getLast?_reverse] at h
  exact head_dropWhile_false isPyWs _ c h

theorem extract_scp_body_strips (doc c : HNode)
    (h : findDivId doc "page-content" = some c) :
    extract_scp_body_from_html doc = clean_text (getTextRaw (stripChrome c)) := by
  unfold extract_scp_body_from_html
  rw [h]

/-- C6, amended: the chrome-stripping and the `_clean_text` normalization
belong to the on-demand article extractor of the UI/TTS paths
(`_extract_scp_body_from_html`), not to the crawl pipeline's
`extract_main_text`.  For that extractor: the junk-selector removal
leaves no chrome node anywhere in the container; the cleaned text
contains no carriage return, its newline runs after the collapse stage
have length at most 2, each line's trailing whitespace is trimmed by the
per-line stage, and the overall result starts and ends with non-whitespace
characters. -/
theorem c6_ui_extractor_normalizes :
    (∀ n : HNode, hasChromeDesc (stripChrome n) = false) ∧
    (∀ doc c : HNode, findDivId doc "page-content" = some c →
      extract_scp_body_from_html doc = clean_text (getTextRaw (stripChrome c))) ∧
    (∀ s : List Char, '\r' ∉ clean_text s) ∧
    (∀ s : List Char, runsOK (collapseNL s) 0 = true) ∧
    (∀ l c, (pyRStrip l).getLast? = some c → isPyWs c = false) ∧
    (∀ s c, (clean_text s).head? = some c → isPyWs c = false) ∧
    (∀ s c, (clean_text s).getLast? = some c → isPyWs c = false) :=
  ⟨hasChromeDesc_stripChrome, extract_scp_body_strips, clean_text_no_cr,
    collapseNL_runsOK, pyRStrip_last_not_ws, clean_text_head_not_ws,
    clean_text_last_not_ws⟩

/-- Witness for `c6_ui_extractor_normalizes` at a concrete document and
string. -/
theorem c6_ui_extractor_normalizes_witness :
    extract_scp_body_from_html
        (HNode.elem "html" none [] none
          [HNode.elem "div" (some "page-content") [] none
            [HNode.txt "A\r\n\n\n\nB  ".data]]) =
      clean_text (getTextRaw (stripChrome
        (HNode.elem "div" (some "page-content") [] none
          [HNode.txt "A\r\n\n\n\nB  ".data]))) ∧
    isPyWs 'B' = false :=
  ⟨c6_ui_extractor_normalizes.2.1
      (HNode.elem "html" none [] none
        [HNode.elem "div" (some "page-content") [] none
          [HNode.txt "A\r\n\n\n\nB  ".data]])
      (HNode.elem "div" (some "page-content") [] none
        [HNode.txt "A\r\n\n\n\nB  ".data]) rfl,
    c6_ui_extractor_normalizes.2.2.2.2.2.2 "A\r\n\n\n\nB  ".data 'B' (by decide)⟩

/-- C6 counterexample: the crawl pipeline's extractor (`extract_main_text`,
called by the `crawl_pages` worker) does NOT strip chrome: a `page-content`
container holding a rating widget yields its text verbatim — the widget
text heads the extracted body, stored as-is in the page cache — and no
blank-line normalization is applied on this path. -/
theorem c6_counterexample :
    (extract_main_text
        (HNode.elem "html" none [] none
          [HNode.elem "div" (some "page-content") [] none
            [HNode.elem "div" none ["page-rate-widget-box"] none
              [HNode.txt "rate this page".data],
             HNode.txt "The anomaly is contained.".data]])).2 =
      "rate this page\nThe anomaly is contained.".data ∧
    findIdx
      (extract_main_text
        (HNode.elem "html" none [] none
          [HNode.elem "div" (some "page-content") [] none
            [HNode.elem "div" none ["page-rate-widget-box"] none
              [HNode.txt "rate this page".data],
             HNode.txt "The anomaly is contained.".data]])).2
      "rate this page".data = some 0 ∧
    lookupD
      (crawl_pages
        (fun _ => some (HNode.elem "html" none [] none
          [HNode.elem "div" (some "page-content") [] none
            [HNode.elem "div" none ["page-rate-widget-box"] none
              [HNode.txt "rate this page".data],
             HNode.txt "The anomaly is contained.".data]]))
        ["https://scp-wiki.wikidot.com/scp-173".data] [])
      "https://scp-wiki.wikidot.com/scp-173".data =
      some ⟨"https://scp-wiki.wikidot.com/scp-173".data, [],
        "rate this page\nThe anomaly is contained.".data⟩ := by decide
